import Mathlib

/-! Verification of the schema-driven document flattener in `src/main.rs`.

Shallow embedding of the Rust program in `src/main.rs`:

* `Value` models `serde_json::Value` (JSON numbers are modelled as `Int`;
  none of the verified properties depends on the floating-point
  representation of numbers).  Objects are modelled as association lists
  with unique keys; `m.get(k)` becomes `List.lookup k m`.
* `Schema` models the two-variant schema tree (`Sub` / `Key`);
  a transform is an arbitrary Lean function `Option Value → Option Value`,
  matching the Rust `fn(Option<Value>) -> Option<Value>` pointer type.
* The Rust methods `_extract_sub` / `_extract_key` panic when dispatched on
  the wrong node kind; the embedding returns `Option` results (`none` =
  panic) from the dispatchers `extract_sub` / `extract_key`, while the
  loop bodies (which the Rust code only ever reaches on the right node
  kind, so they never panic) are the total functions `subEval` /
  `goChildren` / `keyEval`.
* `prefName` models the Rust `Schema::prefix` helper (renamed because the
  original name is not usable here).
-/

namespace SerdeTest

/-- Model of `serde_json::Value`.  Numbers are `Int`; objects are
association lists with unique keys (serde's map, restricted to `get`). -/
inductive Value where
  | null : Value
  | bool (b : Bool) : Value
  | number (n : Int) : Value
  | string (s : String) : Value
  | array (elems : List Value) : Value
  | object (fields : List (String × Value)) : Value

/-- Rust `type Name = String;`. -/
abbrev Name := String

/-- Rust `type Pair = (Name, Option<Value>);`. -/
abbrev Pair := Name × Option Value

/-- Rust `type Record = Vec<Pair>;`. -/
abbrev Record := List Pair

/-- Rust `type Transform = fn(Option<Value>) -> Option<Value>;`. -/
abbrev Transform := Option Value → Option Value

/-- The schema tree: `enum Schema { Sub(&str, Vec<Schema>), Key(&str, Option<&str>, Option<Transform>) }`. -/
inductive Schema where
  | Sub (name : String) (children : List Schema) : Schema
  | Key (key : String) (name : Option String) (transform : Option Transform) : Schema

/-- Rust `Schema::prefix`: `if prefix == "" { name } else { format!("{prefix}_{name}") }`. -/
def prefName (pfx name : String) : String :=
  if pfx = "" then name else pfx ++ "_" ++ name

/-- Test for `Value.object` (used only in theorem statements). -/
def Value.isObj : Value → Bool
  | .object _ => true
  | _ => false

/-- Test for `Value.array` (used only in theorem statements). -/
def Value.isArr : Value → Bool
  | .array _ => true
  | _ => false

/-- Body of `_extract_key` on a `Key(key, name, transform)` node (the Rust
method panics on `Sub`; that dispatch is `extract_key` below). -/
def keyEval (key : String) (name : Option String) (transform : Option Transform)
    (record : Option Value) (pfx : String) : Pair :=
  let k := match name with
    | some n => n
    | none => prefName pfx key
  let value : Option Value :=
    match record with
    | some (Value.object m) =>
      match List.lookup key m with
      | none => none
      | some v => some v
    | _ => none
  match transform with
  | some f => (k, f value)
  | none => (k, value)

/-- Rust `merge_two`: for each `x` in `left`, for each `y` in `right`, emit
`y ++ x` (the Rust `y.append(&mut x.clone())` puts the right record's
fields first, then the left record's fields). -/
def merge_two (left right : List Record) : List Record :=
  left.flatMap fun x => right.map fun y => y ++ x

/-- Rust `merge`: 0 groups → `[]`; 1 group → unchanged; 2 groups → `merge_two`;
3 or more → pop the last group as initial accumulator and left-fold the
remaining groups (in original order) with `merge_two`. -/
def merge (sets : List (List Record)) : List Record :=
  match sets with
  | [] => []
  | [s] => s
  | [l, r] => merge_two l r
  | _ => List.foldl merge_two (sets.getLastD []) sets.dropLast

mutual

/-- The child loop of `_extract_sub`, run only when the context value is
present (`if let Some(record) = record`).  Returns the `fields` list (from
`Key` children, in schema order) and the `subdocs` group list (from `Sub`
children, in schema order):

* `Sub` child, context an object: key maps to an object → recurse once;
  key maps to an array → recurse per element and concatenate; anything
  else (scalar, null, missing key) → push nothing (`_ => {}`);
* `Sub` child, context present but not an object: recurse with `None`;
* `Key` child: evaluate against the context, push one pair. -/
def goChildren (ctx : Value) (pfx' : String) (cs : List Schema) :
    List Pair × List (List Record) :=
  match cs with
  | [] => ([], [])
  | c :: rest =>
    let acc := goChildren ctx pfx' rest
    match c with
    | Schema.Sub n' cs' =>
      match ctx with
      | Value.object m =>
        match List.lookup n' m with
        | some (Value.object m') =>
          (acc.1, subEval n' cs' (some (Value.object m')) pfx' :: acc.2)
        | some (Value.array arr) =>
          (acc.1, (arr.flatMap fun e => subEval n' cs' (some e) pfx') :: acc.2)
        | _ => acc
      | _ => (acc.1, subEval n' cs' none pfx' :: acc.2)
    | Schema.Key k oname t => (keyEval k oname t (some ctx) pfx' :: acc.1, acc.2)
termination_by (sizeOf cs, 0)

/-- Body of `_extract_sub` on a `Sub(name, children)` node (the Rust method
panics on `Key`; that dispatch is `extract_sub` below).  When the context is
absent the Rust loop body is skipped, so `fields` and `subdocs` stay empty;
otherwise the loop `goChildren` runs; if any leaf fields were collected they
are appended as a final single-row group, and everything is merged. -/
def subEval (name : String) (children : List Schema) (record : Option Value)
    (pfx : String) : List Record :=
  let pfx' := prefName pfx name
  match record with
  | none => merge []
  | some v =>
    let fg := goChildren v pfx' children
    merge (if fg.1.length > 0 then fg.2 ++ [[fg.1]] else fg.2)
termination_by (sizeOf children, 1)

end

/-- Dispatch of `_extract_sub`: on a `Key` node the Rust code panics
(`"Cannot call _extract_sub on Key!"`), modelled as `none`. -/
def extract_sub (s : Schema) (record : Option Value) (pfx : String) :
    Option (List Record) :=
  match s with
  | Schema.Sub name children => some (subEval name children record pfx)
  | Schema.Key _ _ _ => none

/-- Dispatch of `_extract_key`: on a `Sub` node the Rust code panics
(`"Cannot call _extract_key on Sub!"`), modelled as `none`. -/
def extract_key (s : Schema) (record : Option Value) (pfx : String) :
    Option Pair :=
  match s with
  | Schema.Sub _ _ => none
  | Schema.Key key name transform => some (keyEval key name transform record pfx)

/-- Rust `Schema::extract`: `self._extract_sub(Some(record), "")`. -/
def Schema.extract (s : Schema) (record : Value) : Option (List Record) :=
  extract_sub s (some record) ""

/-- The provided transform `inc`: adds one to a number, passes everything
else (including an absent value) through unchanged. -/
def inc (val : Option Value) : Option Value :=
  match val with
  | some (Value.number n) => some (Value.number (n + 1))
  | _ => val

/-! Record-count model.

`countSub` / `countChildren` mirror the recursion of `subEval` /
`goChildren` but compute only the number of produced records: an
object-matched `Sub` child contributes its recursive count as one group
factor, an array-matched `Sub` child contributes the sum over its elements
of the recursive counts, a scalar/null/missing-matched `Sub` child under an
object context contributes nothing, a `Sub` child under a present
non-object context contributes the count for an absent context (which is
0), the `Key` children (if any) contribute one group of factor 1, and the
result is the product of the group factors — 0 when there is no group at
all or when the context is absent. -/

mutual

/-- Number of fields contributed by `Key` children and list of group sizes
contributed by `Sub` children (mirrors `goChildren`). -/
def countChildren (v : Value) (cs : List Schema) : Nat × List Nat :=
  match cs with
  | [] => (0, [])
  | c :: rest =>
    let acc := countChildren v rest
    match c with
    | Schema.Sub n' cs' =>
      match v with
      | Value.object m =>
        match List.lookup n' m with
        | some (Value.object m') => (acc.1, countSub cs' (some (Value.object m')) :: acc.2)
        | some (Value.array arr) => (acc.1, (arr.map fun e => countSub cs' (some e)).sum :: acc.2)
        | _ => acc
      | _ => (acc.1, countSub cs' none :: acc.2)
    | Schema.Key _ _ _ => (acc.1 + 1, acc.2)
termination_by (sizeOf cs, 0)

/-- Number of records produced by a `Sub` node (mirrors `subEval`). -/
def countSub (children : List Schema) (record : Option Value) : Nat :=
  match record with
  | none => 0
  | some v =>
    let fg := countChildren v children
    let gcounts := if fg.1 > 0 then fg.2 ++ [1] else fg.2
    if gcounts = [] then 0 else gcounts.prod
termination_by (sizeOf children, 1)

end

/-! Length lemmas for the merger. -/

/-- The cross product of two groups has `|left| * |right|` records. -/
lemma merge_two_length (l r : List Record) :
    (merge_two l r).length = l.length * r.length := by
  induction l with
  | nil => simp [merge_two]
  | cons a l ih =>
    simp only [merge_two, List.flatMap_cons, List.length_append, List.length_map,
      List.length_cons] at ih ⊢
    rw [ih]; ring

lemma foldl_merge_two_length (gs : List (List Record)) (acc : List Record) :
    (List.foldl merge_two acc gs).length = acc.length * (gs.map List.length).prod := by
  induction gs generalizing acc with
  | nil => simp
  | cons g gs ih => simp [List.foldl_cons, ih, merge_two_length]; ring

/-- `merge` of a nonempty list of groups has as many records as the product
of the group sizes. -/
lemma merge_length (gs : List (List Record)) (h : gs ≠ []) :
    (merge gs).length = (gs.map List.length).prod := by
  match gs with
  | [] => exact absurd rfl h
  | [g] => simp [merge]
  | [l, r] => simp [merge, merge_two_length]
  | a :: b :: c :: rest =>
    have hne : (a :: b :: c :: rest) ≠ ([] : List (List Record)) := by simp
    have hmerge : merge (a :: b :: c :: rest)
        = List.foldl merge_two ((a :: b :: c :: rest).getLastD [])
            (a :: b :: c :: rest).dropLast := rfl
    rw [hmerge, foldl_merge_two_length]
    conv_rhs => rw [← List.dropLast_concat_getLast hne]
    rw [List.map_append, List.prod_append]
    simp [List.getLastD_eq_getLast?, List.getLast?_eq_getLast _ hne]
    ring

/-! The count law: `subEval` produces exactly `countSub` records. -/

/-- Transfer step from the child loop to the node body: if the counting
model agrees with `goChildren` on `cs`, then it agrees with `subEval`. -/
lemma subEval_length_of (name : String) (cs : List Schema) (record : Option Value)
    (pfx : String)
    (hg : ∀ (v : Value) (p : String),
      (goChildren v p cs).1.length = (countChildren v cs).1 ∧
      (goChildren v p cs).2.map List.length = (countChildren v cs).2) :
    (subEval name cs record pfx).length = countSub cs record := by
  cases record with
  | none => simp [subEval, countSub, merge]
  | some v =>
    obtain ⟨h1, h2⟩ := hg v (prefName pfx name)
    simp only [subEval, countSub]
    by_cases hf : (goChildren v (prefName pfx name) cs).1.length > 0
    · rw [if_pos hf, if_pos (by omega : (countChildren v cs).1 > 0)]
      have hne : (goChildren v (prefName pfx name) cs).2 ++
          [[(goChildren v (prefName pfx name) cs).1]] ≠ [] := by simp
      rw [merge_length _ hne, if_neg (by simp), List.map_append, List.prod_append, h2]
      simp
    · rw [if_neg hf, if_neg (by omega : ¬ (countChildren v cs).1 > 0)]
      by_cases hg2 : (goChildren v (prefName pfx name) cs).2 = []
      · rw [hg2]
        have : (countChildren v cs).2 = [] := by rw [← h2, hg2]; rfl
        rw [this, if_pos rfl]
        simp [merge]
      · have hcc : (countChildren v cs).2 ≠ [] := by
          rw [← h2]; simpa using hg2
        rw [merge_length _ hg2, if_neg hcc, h2]

/-- The child loop and the counting loop agree, for every schema list
(strong induction on the size of the list). -/
lemma goChildren_count :
    ∀ (n : Nat) (cs : List Schema), sizeOf cs ≤ n → ∀ (v : Value) (p : String),
      (goChildren v p cs).1.length = (countChildren v cs).1 ∧
      (goChildren v p cs).2.map List.length = (countChildren v cs).2 := by
  intro n
  induction n with
  | zero =>
    intro cs hcs
    exfalso
    cases cs with
    | nil => simp at hcs
    | cons c rest => simp [List.cons.sizeOf_spec] at hcs
  | succ n ih =>
    intro cs hcs v p
    cases cs with
    | nil => simp [goChildren, countChildren]
    | cons c rest =>
      cases c with
      | Key k oname t =>
        have hrest : sizeOf rest ≤ n := by
          simp only [List.cons.sizeOf_spec, Schema.Key.sizeOf_spec] at hcs
          omega
        obtain ⟨ih1, ih2⟩ := ih rest hrest v p
        simp only [goChildren, countChildren, List.length_cons]
        exact ⟨by rw [ih1], ih2⟩
      | Sub n' cs' =>
        have hrest : sizeOf rest ≤ n := by
          simp only [List.cons.sizeOf_spec, Schema.Sub.sizeOf_spec] at hcs
          omega
        have hcs' : sizeOf cs' ≤ n := by
          simp only [List.cons.sizeOf_spec, Schema.Sub.sizeOf_spec] at hcs
          omega
        obtain ⟨ih1, ih2⟩ := ih rest hrest v p
        have hsub : ∀ (r : Option Value) (q : String) (nm : String),
            (subEval nm cs' r q).length = countSub cs' r :=
          fun r q nm => subEval_length_of nm cs' r q (ih cs' hcs')
        cases v with
        | object m =>
          cases hlook : List.lookup n' m with
          | none =>
            simp only [goChildren, countChildren, hlook]
            exact ⟨ih1, ih2⟩
          | some w =>
            cases w with
            | object m' =>
              simp only [goChildren, countChildren, hlook, List.map_cons]
              exact ⟨ih1, by rw [ih2, hsub]⟩
            | array arr =>
              simp only [goChildren, countChildren, hlook, List.map_cons]
              refine ⟨ih1, ?_⟩
              rw [ih2, List.length_flatMap]
              have hmap : List.map (List.length ∘ fun e => subEval n' cs' (some e) p) arr
                  = List.map (fun e => countSub cs' (some e)) arr :=
                List.map_congr_left fun e _ => by
                  simp only [Function.comp_apply]
                  exact hsub (some e) p n'
              rw [hmap]
            | null =>
              simp only [goChildren, countChildren, hlook]
              exact ⟨ih1, ih2⟩
            | bool b =>
              simp only [goChildren, countChildren, hlook]
              exact ⟨ih1, ih2⟩
            | number q =>
              simp only [goChildren, countChildren, hlook]
              exact ⟨ih1, ih2⟩
            | string s =>
              simp only [goChildren, countChildren, hlook]
              exact ⟨ih1, ih2⟩
        | null =>
          simp only [goChildren, countChildren, List.map_cons]
          exact ⟨ih1, by rw [ih2, hsub]⟩
        | bool b =>
          simp only [goChildren, countChildren, List.map_cons]
          exact ⟨ih1, by rw [ih2, hsub]⟩
        | number q =>
          simp only [goChildren, countChildren, List.map_cons]
          exact ⟨ih1, by rw [ih2, hsub]⟩
        | string s =>
          simp only [goChildren, countChildren, List.map_cons]
          exact ⟨ih1, by rw [ih2, hsub]⟩
        | array arr2 =>
          simp only [goChildren, countChildren, List.map_cons]
          exact ⟨ih1, by rw [ih2, hsub]⟩

/-- For every `Sub` node body, the number of extracted records equals the
recursive count model. -/
lemma subEval_length (name : String) (cs : List Schema) (record : Option Value)
    (pfx : String) : (subEval name cs record pfx).length = countSub cs record :=
  subEval_length_of name cs record pfx (goChildren_count (sizeOf cs) cs le_rfl)

/-! Claim theorems. -/

/-- Claim C6: `merge` of an empty list of groups returns the empty record
list, and `merge` of a single group returns that group unchanged (identity
law), for every group `G`. -/
theorem merge_identity_laws (G : List Record) :
    merge ([] : List (List Record)) = [] ∧ merge [G] = G :=
  ⟨rfl, rfl⟩

/-- Claim C7: calling the Sub-only traversal (`_extract_sub`) on a `Key`
node, or the Key-only leaf evaluator (`_extract_key`) on a `Sub` node, is
fatal — modelled as the `none` result of the dispatchers — for every
prefix and context. -/
theorem wrong_dispatch_is_fatal (k : String) (oname : Option String)
    (t : Option Transform) (nm : String) (cs : List Schema)
    (r : Option Value) (p : String) :
    extract_sub (Schema.Key k oname t) r p = none ∧
    extract_key (Schema.Sub nm cs) r p = none :=
  ⟨rfl, rfl⟩

/-- Claim C8: a `Key` node emits the explicit output name verbatim when one
is declared and otherwise the prefixed source key, where the prefix helper
returns the bare name for an empty prefix and otherwise joins with an
underscore. -/
theorem key_name_resolution (key : String) (oname : Option String)
    (t : Option Transform) (ctx : Option Value) (pfx : String) :
    (extract_key (Schema.Key key oname t) ctx pfx).map Prod.fst
      = some (match oname with | some n => n | none => prefName pfx key) ∧
    prefName "" key = key ∧
    (pfx ≠ "" → prefName pfx key = pfx ++ "_" ++ key) := by
  refine ⟨?_, by simp [prefName], fun h => by simp [prefName, h]⟩
  cases oname <;> cases t <;> simp [extract_key, keyEval]

/-- Witness for C8 at concrete inputs. -/
theorem key_name_resolution_witness :
    (extract_key (Schema.Key "k" none none) none "p").map Prod.fst = some "p_k" ∧
    prefName "" "k" = "k" ∧ prefName "p" "k" = "p_k" := by
  obtain ⟨h1, h2, h3⟩ := key_name_resolution "k" none none none "p"
  refine ⟨?_, h2, h3 (by decide)⟩
  rw [h1]
  simp [prefName]

/-- Claim C9: the increment-by-one transform `inc` returns its input
unchanged on absent or non-numeric input, and a `Key` leaf carrying `inc`
evaluated with an absent context emits a null value. -/
theorem inc_passthrough (v : Option Value)
    (hv : ∀ n : Int, v ≠ some (Value.number n))
    (k pfx : String) (oname : Option String) :
    inc v = v ∧
    extract_key (Schema.Key k oname (some inc)) none pfx
      = some ((match oname with | some n => n | none => prefName pfx k), none) := by
  constructor
  · cases v with
    | none => rfl
    | some w =>
      cases w with
      | number n => exact absurd rfl (hv n)
      | null => rfl
      | bool b => rfl
      | string s => rfl
      | array elems => rfl
      | object fields => rfl
  · cases oname <;> simp [extract_key, keyEval, inc]

/-- Witness for C9 at concrete inputs. -/
theorem inc_passthrough_witness :
    inc (some (Value.string "x")) = some (Value.string "x") ∧
    extract_key (Schema.Key "n" none (some inc)) none "" = some ("n", none) := by
  have h := inc_passthrough (some (Value.string "x"))
    (fun n hn => by simp at hn) "n" "" none
  exact ⟨h.1, by simpa [prefName] using h.2⟩

/-- Counterexample for C5: a schema with a `Key` child and a `Sub` child,
extracted from a document that is not an object, yields zero records even
though the document contains no array at all (every per-path product of
array lengths is the empty product 1, so the claimed formula predicts a
nonzero record count). -/
theorem record_count_formula_cex :
    Schema.extract (Schema.Sub "" [Schema.Key "k" none none,
        Schema.Sub "a" [Schema.Key "x" none none]]) Value.null = some [] ∧
    (Schema.extract (Schema.Sub "" [Schema.Key "k" none none,
        Schema.Sub "a" [Schema.Key "x" none none]]) Value.null).map List.length
      ≠ some 1 := by
  have h : Schema.extract (Schema.Sub "" [Schema.Key "k" none none,
      Schema.Sub "a" [Schema.Key "x" none none]]) Value.null = some [] := by
    simp [Schema.extract, extract_sub, subEval, goChildren, keyEval, merge,
      merge_two, prefName]
  exact ⟨h, by rw [h]; simp⟩

/-- Claim C5 (amended): the number of records returned by `extract` on a
`Sub`-rooted schema equals the recursive count `countSub`: per node the
product over the contributed sibling groups, where an object-matched `Sub`
child contributes its recursive count, an array-matched `Sub` child
contributes the sum of the recursive counts over its elements (so pure
array nesting multiplies array lengths along each path), a scalar- or
missing-matched `Sub` child contributes no factor, a `Sub` child under a
present non-object context contributes a zero factor, the `Key` children
(if any) contribute a factor 1, and a node with no contributed group at
all (or an absent context) yields zero records. -/
theorem extract_record_count (name : String) (children : List Schema) (d : Value) :
    (Schema.extract (Schema.Sub name children) d).map List.length
      = some (countSub children (some d)) := by
  simp only [Schema.extract, extract_sub, Option.map_some']
  exact congrArg some (subEval_length name children (some d) "")

/-- Counterexample for C1: a `Sub` node with one `Key` child evaluated with
an absent context returns zero records — no (name, value) pair is emitted
at all, instead of the claimed one null pair per `Key` child. -/
theorem absent_context_cex :
    extract_sub (Schema.Sub "s" [Schema.Key "k" none none]) none "" = some [] ∧
    extract_sub (Schema.Sub "s" [Schema.Key "k" none none]) none ""
      ≠ some [[("s_k", (none : Option Value))]] := by
  have h : extract_sub (Schema.Sub "s" [Schema.Key "k" none none]) none ""
      = some [] := by
    simp [extract_sub, subEval, merge]
  exact ⟨h, by rw [h]; simp⟩

/-- Claim C1 (amended): a `Sub` node given an absent context evaluates no
children and returns zero records; given a present context that is not an
object, every `Key` child is evaluated against it and its raw value is null
(so a transform-free `Key` child emits a null value), and every `Sub` child
recurses with an absent context. -/
theorem absent_and_nonobject_context (name pfx k n' : String)
    (oname : Option String) (children cs' : List Schema) (v : Value)
    (hv : v.isObj = false) :
    subEval name children none pfx = [] ∧
    keyEval k oname none (some v) pfx = (oname.getD (prefName pfx k), none) ∧
    goChildren v pfx (Schema.Sub n' cs' :: children)
      = ((goChildren v pfx children).1,
         subEval n' cs' none pfx :: (goChildren v pfx children).2) := by
  refine ⟨by simp [subEval, merge], ?_, ?_⟩
  · cases v with
    | object m => simp [Value.isObj] at hv
    | null => cases oname <;> simp [keyEval]
    | bool b => cases oname <;> simp [keyEval]
    | number q => cases oname <;> simp [keyEval]
    | string s => cases oname <;> simp [keyEval]
    | array elems => cases oname <;> simp [keyEval]
  · cases v with
    | object m => simp [Value.isObj] at hv
    | null => simp only [goChildren]
    | bool b => simp only [goChildren]
    | number q => simp only [goChildren]
    | string s => simp only [goChildren]
    | array elems => simp only [goChildren]

/-- Witness for C1 (amended) at concrete inputs. -/
theorem absent_and_nonobject_context_witness :
    subEval "s" [Schema.Key "k" none none] none "" = [] ∧
    keyEval "k" none none (some (Value.number 7)) "" = ("k", none) ∧
    goChildren (Value.number 7) "" [Schema.Sub "t" [], Schema.Key "k" none none]
      = ((goChildren (Value.number 7) "" [Schema.Key "k" none none]).1,
         subEval "t" [] none ""
           :: (goChildren (Value.number 7) "" [Schema.Key "k" none none]).2) := by
  have h := absent_and_nonobject_context "s" "" "k" "t" none
    [Schema.Key "k" none none] [] (Value.number 7) rfl
  exact ⟨h.1, by simpa [prefName] using h.2.1, h.2.2⟩

/-- Counterexample for C2: a root schema with a `Key` child `top` and a
`Sub` child `a` (containing leaf `k`), extracted from an object in which
`a` is the scalar 5, yields one record that does not contain the declared
leaf name `a_k` at all — the leaf shape is not preserved with nulls. -/
theorem scalar_sub_child_cex :
    Schema.extract (Schema.Sub "" [Schema.Key "top" none none,
        Schema.Sub "a" [Schema.Key "k" none none]])
      (Value.object [("a", Value.number 5), ("top", Value.number 1)])
      = some [[("top", some (Value.number 1))]] ∧
    "a_k" ∉ ([("top", some (Value.number 1))] : Record).map Prod.fst := by
  constructor
  · simp [Schema.extract, extract_sub, subEval, goChildren, keyEval, merge,
      merge_two, prefName, List.lookup]
  · decide

/-- Claim C2 (amended): a `Sub` child of an object context whose source key
looks up to a scalar, null, or missing value is skipped entirely — it
contributes no group to the merge and none of its declared leaf names is
emitted. -/
theorem sub_child_scalar_skipped (n' pfx' : String) (cs' rest : List Schema)
    (m : List (String × Value))
    (h : ∀ w, List.lookup n' m = some w → w.isObj = false ∧ w.isArr = false) :
    goChildren (Value.object m) pfx' (Schema.Sub n' cs' :: rest)
      = goChildren (Value.object m) pfx' rest := by
  cases hlook : List.lookup n' m with
  | none => simp only [goChildren, hlook]
  | some w =>
    obtain ⟨h1, h2⟩ := h w hlook
    cases w with
    | object m' => simp [Value.isObj] at h1
    | array arr => simp [Value.isArr] at h2
    | null => simp only [goChildren, hlook]
    | bool b => simp only [goChildren, hlook]
    | number q => simp only [goChildren, hlook]
    | string s => simp only [goChildren, hlook]

/-- Witness for C2 (amended) at concrete inputs. -/
theorem sub_child_scalar_skipped_witness :
    goChildren (Value.object [("a", Value.number 5)]) "" [Schema.Sub "a" []]
      = goChildren (Value.object [("a", Value.number 5)]) "" [] := by
  apply sub_child_scalar_skipped
  intro w hw
  have h5 : List.lookup "a" [("a", Value.number 5)] = some (Value.number 5) := rfl
  rw [h5] at hw
  cases hw
  exact ⟨rfl, rfl⟩

/-- Indexing law for the cross product: entry `i * |right| + j` of
`merge_two left right` is the j-th right record followed by the i-th left
record (left-record-major row order). -/
lemma merge_two_getElem (l r : List Record) (i j : Nat) (hj : j < r.length) :
    (merge_two l r)[i * r.length + j]?
      = (l[i]?).map fun x => r.get ⟨j, hj⟩ ++ x := by
  induction l generalizing i with
  | nil =>
    simp [merge_two]
  | cons a l ih =>
    have hsplit : merge_two (a :: l) r
        = (r.map fun y => y ++ a) ++ merge_two l r := by
      simp [merge_two]
    rw [hsplit, List.getElem?_append]
    cases i with
    | zero =>
      rw [if_pos (by simpa using hj)]
      simp [List.getElem?_map, List.getElem?_eq_getElem hj]
    | succ i' =>
      have hmul : (i' + 1) * r.length = i' * r.length + r.length := by ring
      rw [hmul, if_neg (by simp only [List.length_map]; omega)]
      have harith : i' * r.length + r.length + j - (r.map fun y => y ++ a).length
          = i' * r.length + j := by
        simp only [List.length_map]; omega
      rw [harith, ih i']
      simp

/-- Counterexample for C3: with a two-row left group and a two-row right
group, the output row order is left-record-major — row 1 pairs the second
right record with the first left record — not the claimed right-record-
major order (which would put the right fields c, b in row 1). -/
theorem merge_two_row_order_cex :
    merge_two [[("a", (none : Option Value))], [("b", none)]]
        [[("c", none)], [("d", none)]]
      = [[("c", none), ("a", none)], [("d", none), ("a", none)],
         [("c", none), ("b", none)], [("d", none), ("b", none)]] ∧
    ([[("c", (none : Option Value)), ("a", none)], [("d", none), ("a", none)],
      [("c", none), ("b", none)], [("d", none), ("b", none)]]
        : List Record).map (List.map Prod.fst)
      ≠ [["c", "a"], ["c", "b"], ["d", "a"], ["d", "b"]] := by
  exact ⟨rfl, by decide⟩

/-- Claim C3 (amended): merging two groups is the cross product — the
output has `|left| * |right|` records, record `i * |right| + j` is the
fields of the j-th right record followed by the fields of the i-th left
record (right-side fields first, left-side fields second, in per-record
order) — with rows ordered by the outer loop over the left group and the
inner loop over the right group. -/
theorem merge_two_cross (l r : List Record) (i j : Nat)
    (hi : i < l.length) (hj : j < r.length) :
    (merge_two l r).length = l.length * r.length ∧
    (merge_two l r)[i * r.length + j]? = some (r.get ⟨j, hj⟩ ++ l.get ⟨i, hi⟩) := by
  refine ⟨merge_two_length l r, ?_⟩
  rw [merge_two_getElem l r i j hj, List.getElem?_eq_getElem hi]
  rfl

/-- Witness for C3 (amended) at concrete inputs. -/
theorem merge_two_cross_witness :
    (merge_two [[("a", (none : Option Value))], [("b", none)]]
        [[("c", none)], [("d", none)]]).length = 2 * 2 ∧
    (merge_two [[("a", (none : Option Value))], [("b", none)]]
        [[("c", none)], [("d", none)]])[1 * 2 + 0]?
      = some [("c", none), ("b", none)] := by
  have h := merge_two_cross [[("a", (none : Option Value))], [("b", none)]]
    [[("c", none)], [("d", none)]] 1 0 (by simp) (by simp)
  exact ⟨by simpa using h.1, by simpa using h.2⟩

/-- One fold step on singleton groups prepends the next record. -/
lemma foldl_merge_two_singletons (xs : List Record) (a : Record) :
    List.foldl merge_two [a] (xs.map fun r => [r])
      = [xs.reverse.flatten ++ a] := by
  induction xs generalizing a with
  | nil => simp
  | cons x xs ih =>
    simp only [List.map_cons, List.foldl_cons]
    have h1 : merge_two [a] [x] = [x ++ a] := by simp [merge_two]
    rw [h1, ih]
    simp

/-- Unfolding `merge` on three or more groups written with an explicit last
group. -/
lemma merge_concat_ge3 (g1 g2 : List Record) (gs : List (List Record))
    (glast : List Record) :
    merge (g1 :: g2 :: gs ++ [glast]) = List.foldl merge_two glast (g1 :: g2 :: gs) := by
  cases gs with
  | nil => rfl
  | cons g3 gs' =>
    show List.foldl merge_two ((g1 :: g2 :: g3 :: (gs' ++ [glast])).getLastD [])
        ((g1 :: g2 :: g3 :: (gs' ++ [glast])).dropLast) = _
    have e1 : (g1 :: g2 :: g3 :: (gs' ++ [glast])).getLastD ([] : List Record)
        = glast := by
      simpa using List.getLastD_concat ([] : List Record) glast (g1 :: g2 :: g3 :: gs')
    have e2 : (g1 :: g2 :: g3 :: (gs' ++ [glast])).dropLast = g1 :: g2 :: g3 :: gs' := by
      simpa using @List.dropLast_concat (List Record) (g1 :: g2 :: g3 :: gs') glast
    rw [e1, e2]

/-- Counterexample for C4: merging three singleton groups (fields a, b, c)
yields the single record b, a, c — the fields of the originally-last group
(c) end up last, not first, in the final field order. -/
theorem merge_last_group_first_cex :
    merge [[[("a", (none : Option Value))]], [[("b", none)]], [[("c", none)]]]
      = [[("b", none), ("a", none), ("c", none)]] ∧
    (["b", "a", "c"].head? = some "c") = False := by
  exact ⟨rfl, by decide⟩

/-- Claim C4 (amended): merging more than two groups pops the last group
off as the initial accumulator and folds the remaining groups, in original
order, with the two-group rule; consequently (shown here for singleton
groups) the fields of the originally-last group end up last in each output
record, preceded by the fields of the remaining groups in reverse
declaration order. -/
theorem merge_fold_order (front : List Record) (final : Record)
    (h : 2 ≤ front.length) :
    merge ((front ++ [final]).map fun r => [r])
      = [front.reverse.flatten ++ final] := by
  cases front with
  | nil => simp at h
  | cons a front1 =>
    cases front1 with
    | nil => simp at h
    | cons b front2 =>
      have hshape : ((a :: b :: front2 ++ [final]).map fun r => [r])
          = [a] :: [b] :: front2.map (fun r => [r]) ++ [[final]] := by simp
      rw [hshape, merge_concat_ge3]
      have hmap : ([a] :: [b] :: front2.map fun r => [r])
          = (a :: b :: front2).map fun r => [r] := by simp
      rw [hmap, foldl_merge_two_singletons]

/-- Witness for C4 (amended) at concrete inputs: three groups a, b, c fold
to the single record b, a, c. -/
theorem merge_fold_order_witness :
    merge [[[("a", (none : Option Value))]], [[("b", none)]], [[("x", none)]]]
      = [[("b", none), ("a", none), ("x", none)]] := by
  have h := merge_fold_order [[("a", (none : Option Value))], [("b", none)]]
    [("x", none)] (by simp)
  simpa using h

/-- If some `Sub` child of the list looks up to an empty array in the
object context, the counting loop records a zero group factor. -/
lemma zero_mem_counts (m : List (String × Value)) (n' : String)
    (cs' : List Schema) (children : List Schema)
    (hchild : Schema.Sub n' cs' ∈ children)
    (hlook : List.lookup n' m = some (Value.array [])) :
    0 ∈ (countChildren (Value.object m) children).2 := by
  induction children with
  | nil => cases hchild
  | cons c rest ih =>
    cases hchild with
    | head =>
      simp only [countChildren, hlook, List.map_nil, List.sum_nil]
      exact List.mem_cons_self _ _
    | tail _ hmem =>
      have hrest := ih hmem
      cases c with
      | Key k oname t => simpa only [countChildren] using hrest
      | Sub n2 cs2 =>
        cases hl2 : List.lookup n2 m with
        | none => simpa only [countChildren, hl2] using hrest
        | some w =>
          cases w with
          | object m2 =>
            simp only [countChildren, hl2]
            exact List.mem_cons_of_mem _ hrest
          | array arr2 =>
            simp only [countChildren, hl2]
            exact List.mem_cons_of_mem _ hrest
          | null => simpa only [countChildren, hl2] using hrest
          | bool b => simpa only [countChildren, hl2] using hrest
          | number q => simpa only [countChildren, hl2] using hrest
          | string s => simpa only [countChildren, hl2] using hrest

/-- Claim C10: the empty group annihilates the cross product — `merge_two`
with an empty side is empty, `merge` of two or more groups containing an
empty group is empty, and a `Sub` node one of whose `Sub` children matches
an empty array extracts zero records, discarding all sibling fields. -/
theorem empty_group_annihilates (l r : List Record)
    (gs : List (List Record)) (h2 : 2 ≤ gs.length)
    (hmem : ([] : List Record) ∈ gs)
    (name pfx n' : String) (cs' : List Schema) (children : List Schema)
    (m : List (String × Value))
    (hchild : Schema.Sub n' cs' ∈ children)
    (hlook : List.lookup n' m = some (Value.array [])) :
    merge_two l [] = [] ∧ merge_two [] r = [] ∧ merge gs = [] ∧
    subEval name children (some (Value.object m)) pfx = [] := by
  refine ⟨by simp [merge_two], rfl, ?_, ?_⟩
  · have hne : gs ≠ [] := by
      intro hnil; rw [hnil] at h2; simp at h2
    have hlen : (merge gs).length = 0 := by
      rw [merge_length gs hne]
      exact List.prod_eq_zero (by simpa using List.mem_map_of_mem List.length hmem)
    exact List.length_eq_zero.mp hlen
  · have hcount : countSub children (some (Value.object m)) = 0 := by
      have hz := zero_mem_counts m n' cs' children hchild hlook
      simp only [countSub]
      by_cases hf : (countChildren (Value.object m) children).1 > 0
      · rw [if_pos hf, if_neg (by simp)]
        exact List.prod_eq_zero (List.mem_append_left _ hz)
      · rw [if_neg hf, if_neg (by intro hnil; rw [hnil] at hz; cases hz)]
        exact List.prod_eq_zero hz
    have hlen : (subEval name children (some (Value.object m)) pfx).length = 0 := by
      rw [subEval_length]; exact hcount
    exact List.length_eq_zero.mp hlen

/-- Witness for C10 at concrete inputs. -/
theorem empty_group_annihilates_witness :
    merge_two [[("x", (none : Option Value))]] [] = [] ∧
    merge_two [] [[("x", (none : Option Value))]] = [] ∧
    merge [([] : List Record), [[("x", (none : Option Value))]]] = [] ∧
    subEval "" [Schema.Sub "a" [], Schema.Key "x" none none]
      (some (Value.object [("a", Value.array [])])) "" = [] := by
  exact empty_group_annihilates [[("x", (none : Option Value))]]
    [[("x", (none : Option Value))]]
    [([] : List Record), [[("x", (none : Option Value))]]]
    (by simp) (List.mem_cons_self _ _)
    "" "" "a" [] [Schema.Sub "a" [], Schema.Key "x" none none]
    [("a", Value.array [])] (List.mem_cons_self _ _) rfl

end SerdeTest
